import Mathlib

/-!
Verification of the RFM (Recency-Frequency-Monetary) customer segmentation
engine of `dashboard/Dashboard.py` (`create_rfm_df`, lines 52-99).

The engine is shallowly embedded:
* an input table is a `List OrderRow`; timestamps are integers (seconds),
  one day is `86400` seconds, and `pandas.Timedelta.days` is floor division
  by `86400` (Lean's `Int` division `/` is floor division for a positive
  divisor); prices are exact rationals;
* `df.groupby("customer_unique_id")` sorts the distinct keys ascending
  (`customersOf`), and each aggregate is computed from the rows of the group
  (`rowsOf`);
* `pd.qcut(values, 5, labels)` computes the 6 quantile edges of the sorted
  values at probabilities 0, 1/5, ..., 5/5 with linear interpolation
  (numpy's virtual index `h = k*(n-1)/5`, split into integer part and
  fractional part), raises when two edges coincide (`strictAsc` check,
  modelled as `Option.none`), and otherwise assigns each value `v` to the
  right-closed bin `(e_j, e_(j+1)]` (the minimum lands in bin 0), which for
  distinct edges is the number of internal edges strictly below `v`
  (`binOf`).  For `q = 5` on integer data every edge is a rational with
  denominator 5, so an edge is represented exactly by its numerator
  `quantileNum = 5 × edge`, and every comparison `edge < v` becomes
  `quantileNum < 5*v`;
* `Series.rank(method="first")` is `rankFirst`;
* the `seg_map` regex dictionary applied by `Series.replace(..., regex=True)`
  is `segReplace`: the six regexes match two-character digit codes, each
  pattern is a pair of character classes (plus the `|21` alternative of the
  `Lost` pattern), the replacement labels contain no digits so successive
  replacement equals first-match, and an unmatched value is left unchanged.
-/

namespace RFM

/-- One line item of the input table (`all_data.csv` row, restricted to the
columns `create_rfm_df` reads). -/
structure OrderRow where
  customer_unique_id : String
  order_id : String
  order_purchase_timestamp : Int
  price : ℚ

/-- Lexicographic comparison of character lists by code point. -/
def charListLe : List Char → List Char → Bool
  | [], _ => true
  | _ :: _, [] => false
  | a :: as, b :: bs =>
    if a.toNat < b.toNat then true
    else if b.toNat < a.toNat then false
    else charListLe as bs

/-- Lexicographic string comparison (the ascending key order used by
`groupby(sort=True)`). -/
def strLe (a b : String) : Bool := charListLe a.data b.data

/-- Sort a list of strings ascending. -/
def sortStrings (l : List String) : List String :=
  List.insertionSort (fun a b => strLe a b = true) l

/-- Maximum of a list of integers (`Series.max()`); junk value 0 on the
empty list, which `create_rfm_df` never meaningfully hits. -/
def listMax : List Int → Int
  | [] => 0
  | a :: t => t.foldl max a

/-- Number of seconds in `pd.Timedelta(days=1)`. -/
def secondsPerDay : Int := 86400

/-- `df["order_purchase_timestamp"].max()`. -/
def maxTS (df : List OrderRow) : Int :=
  listMax (df.map (·.order_purchase_timestamp))

/-- `max_date = df["order_purchase_timestamp"].max() + pd.Timedelta(days=1)`. -/
def maxDate (df : List OrderRow) : Int := maxTS df + secondsPerDay

/-- The rows of the group of customer `c` under
`df.groupby("customer_unique_id")`. -/
def rowsOf (df : List OrderRow) (c : String) : List OrderRow :=
  df.filter (fun r => decide (r.customer_unique_id = c))

/-- `(max_date - x.max()).days` for the timestamp column `x` of customer
`c`'s group (`Timedelta.days` floors). -/
def recencyOf (df : List OrderRow) (c : String) : Int :=
  (maxDate df - listMax ((rowsOf df c).map (·.order_purchase_timestamp)))
    / secondsPerDay

/-- `"order_id": "nunique"` for customer `c`'s group. -/
def frequencyOf (df : List OrderRow) (c : String) : Nat :=
  ((rowsOf df c).map (·.order_id)).dedup.length

/-- `"price": "sum"` for customer `c`'s group. -/
def monetaryOf (df : List OrderRow) (c : String) : ℚ :=
  ((rowsOf df c).map (·.price)).sum

/-- The index of `rfm_df`: the distinct customer ids, ascending
(`groupby` sorts its keys). -/
def customersOf (df : List OrderRow) : List String :=
  sortStrings ((df.map (·.customer_unique_id)).dedup)

/-- A row of `rfm_df` after the `agg`/`rename` (lines 57-73). -/
structure RFMRow where
  customer_unique_id : String
  recency : Int
  frequency : Nat
  monetary : ℚ

def dfltRFM : RFMRow := ⟨"", 0, 0, 0⟩

/-- `rfm_df` after per-customer aggregation: one row per distinct customer,
in ascending id order. -/
def rfm_base (df : List OrderRow) : List RFMRow :=
  (customersOf df).map
    (fun c => ⟨c, recencyOf df c, frequencyOf df c, monetaryOf df c⟩)

/-- `Series.rank(method="first")`: the rank of the element at position `i`
is 1 + (number of strictly smaller elements anywhere) + (number of equal
elements at earlier positions). -/
def rankFirst (xs : List Nat) : List Nat :=
  (List.range xs.length).map (fun i =>
    1 + xs.countP (fun y => decide (y < xs.getD i 0))
      + (xs.take i).countP (fun y => decide (y = xs.getD i 0)))

/-- `5 ×` the `k`-th quantile edge (k = 0..5) of the sorted value list `s`:
linear interpolation at virtual index `h = k*(n-1)/5`, whose integer part
is `d / 5` and whose fractional part is `(d % 5)/5` for `d = k*(n-1)`. -/
def quantileNum (s : List Int) (k : Nat) : Int :=
  if k * (s.length - 1) / 5 + 1 < s.length then
    5 * s.getD (k * (s.length - 1) / 5) 0
      + ((k * (s.length - 1) % 5 : Nat) : Int)
        * (s.getD (k * (s.length - 1) / 5 + 1) 0
            - s.getD (k * (s.length - 1) / 5) 0)
  else 5 * s.getD (s.length - 1) 0

/-- Ascending sort of the binned values. -/
def sortInts (l : List Int) : List Int := List.insertionSort (· ≤ ·) l

/-- The 6 scaled quantile edges of `pd.qcut(values, 5, ...)`. -/
def qcutEdges (values : List Int) : List Int :=
  (List.range 6).map (quantileNum (sortInts values))

/-- Bin index of value `v` for (distinct) scaled edges: the number of
internal edges strictly below `v` (right-closed bins, minimum in bin 0). -/
def binOf (edges : List Int) (v : Int) : Nat :=
  ((edges.drop 1).take 4).countP (fun e => decide (e < 5 * v))

/-- Strict ascent of the edge list — the negation of pandas' "Bin edges
must be unique" error condition (edges are nondecreasing by construction). -/
def strictAsc : List Int → Bool
  | a :: b :: t => (decide (a < b)) && strictAsc (b :: t)
  | _ => true

/-- `pd.qcut(values, 5, labels)`: `none` models the raised `ValueError`
(empty input, or duplicate bin edges). -/
def qcut (values : List Int) (labels : List Nat) : Option (List Nat) :=
  if values.isEmpty then none
  else if strictAsc (qcutEdges values) then
    some (values.map (fun v => labels.getD (binOf (qcutEdges values) v) 0))
  else none

/-- Character class `[lo-hi]`. -/
def charIn (lo hi c : Char) : Bool :=
  decide (lo.toNat ≤ c.toNat) && decide (c.toNat ≤ hi.toNat)

/-- A regex that is a pair of character classes, matched against a
two-character code. -/
def matchTwo (p q : Char → Bool) (s : String) : Bool :=
  match s.data with
  | [a, b] => p a && q b
  | _ => false

/-- `r"[4-5][4-5]"`. -/
def patChampions : String → Bool := matchTwo (charIn '4' '5') (charIn '4' '5')

/-- `r"3[4-5]"`. -/
def patLoyal : String → Bool := matchTwo (charIn '3' '3') (charIn '4' '5')

/-- `r"[3-5][1-3]"`. -/
def patPotential : String → Bool := matchTwo (charIn '3' '5') (charIn '1' '3')

/-- `r"[1-2][4-5]"`. -/
def patAtRisk : String → Bool := matchTwo (charIn '1' '2') (charIn '4' '5')

/-- `r"2[2-3]"`. -/
def patHibernating : String → Bool := matchTwo (charIn '2' '2') (charIn '2' '3')

/-- `r"1[1-3]|21"`. -/
def patLost : String → Bool :=
  fun s => matchTwo (charIn '1' '1') (charIn '1' '3') s || decide (s = "21")

/-- The patterns of `seg_map`, in dictionary order. -/
def segPatterns : List (String → Bool) :=
  [patChampions, patLoyal, patPotential, patAtRisk, patHibernating, patLost]

/-- How many of the six `seg_map` patterns match `s`. -/
def segMatchCount (s : String) : Nat := segPatterns.countP (fun p => p s)

/-- The six segment labels, in `seg_map` order. -/
def segLabels : List String :=
  ["Champions", "Loyal customers", "Potential loyalist", "At risk",
   "Hibernating", "Lost"]

/-- `Series.replace(seg_map, regex=True)` on one `rf_score` value: the
labels contain no digits, so iterated replacement is first-match; an
unmatched value is left unchanged. -/
def segReplace (s : String) : String :=
  if patChampions s then "Champions"
  else if patLoyal s then "Loyal customers"
  else if patPotential s then "Potential loyalist"
  else if patAtRisk s then "At risk"
  else if patHibernating s then "Hibernating"
  else if patLost s then "Lost"
  else s

/-- A fully scored row of `rfm_df` (after lines 77-95). -/
structure ScoredRow where
  customer_unique_id : String
  recency : Int
  frequency : Nat
  monetary : ℚ
  r_score : Nat
  f_score : Nat
  rf_score : String
  customers_type : String

/-- Attach the two quantile scores to a base row and derive
`rf_score = str(r) + str(f)` and `customers_type`. -/
def mkScored (b : RFMRow) (r f : Nat) : ScoredRow :=
  { customer_unique_id := b.customer_unique_id
    recency := b.recency
    frequency := b.frequency
    monetary := b.monetary
    r_score := r
    f_score := f
    rf_score := toString r ++ toString f
    customers_type := segReplace (toString r ++ toString f) }

def dfltScored : ScoredRow := mkScored dfltRFM 0 0

/-- The recency column, in `rfm_df` row order. -/
def recVals (df : List OrderRow) : List Int := (rfm_base df).map (·.recency)

/-- `rfm_df["frequency"].rank(method="first")`, in `rfm_df` row order. -/
def rankVals (df : List OrderRow) : List Int :=
  (rankFirst ((rfm_base df).map (·.frequency))).map Int.ofNat

/-- `labels=[5,4,3,2,1]` of the recency qcut. -/
def rLabels : List Nat := [5, 4, 3, 2, 1]

/-- `labels=[1,2,3,4,5]` of the frequency qcut. -/
def fLabels : List Nat := [1, 2, 3, 4, 5]

/-- `rfm_df.groupby("customers_type")["monetary"].sum().reset_index()`. -/
def revenuePerType (rows : List ScoredRow) : List (String × ℚ) :=
  (sortStrings ((rows.map (·.customers_type)).dedup)).map
    (fun t =>
      (t, ((rows.filter (fun row => decide (row.customers_type = t))).map
            (·.monetary)).sum))

/-- `create_rfm_df`: per-customer aggregation, the two quantile scores
(column assignment is positional over the `rfm_df` rows), segment
classification, and segment revenue.  `none` models a raised pandas
error. -/
def computeRFM (df : List OrderRow) :
    Option (List ScoredRow × List (String × ℚ)) :=
  match qcut (recVals df) rLabels, qcut (rankVals df) fLabels with
  | some rs, some fs =>
    let rows := (List.range (rfm_base df).length).map
      (fun i => mkScored ((rfm_base df).getD i dfltRFM) (rs.getD i 0)
        (fs.getD i 0))
    some (rows, revenuePerType rows)
  | _, _ => none

/-- The returned pair of a successful run. -/
def resultOf (df : List OrderRow) : List ScoredRow × List (String × ℚ) :=
  (computeRFM df).getD ([], [])

/-- Abstract bin index of sorted position `j` among `n` distinct values:
the number of thresholds `k*(n-1)/5` (k = 1..4) strictly below `j`. -/
def tau (n j : Nat) : Nat :=
  (if 1 * (n - 1) < 5 * j then 1 else 0)
    + (if 2 * (n - 1) < 5 * j then 1 else 0)
    + (if 3 * (n - 1) < 5 * j then 1 else 0)
    + (if 4 * (n - 1) < 5 * j then 1 else 0)

/-- Modelled from the spec: the hand-authored segment table of §4.1 step 6
as a function of the two scores. -/
def specSegment (r f : Nat) : String :=
  if (r = 4 ∨ r = 5) ∧ (f = 4 ∨ f = 5) then "Champions"
  else if r = 3 ∧ (f = 4 ∨ f = 5) then "Loyal customers"
  else if (r = 3 ∨ r = 4 ∨ r = 5) ∧ (f = 1 ∨ f = 2 ∨ f = 3) then
    "Potential loyalist"
  else if (r = 1 ∨ r = 2) ∧ (f = 4 ∨ f = 5) then "At risk"
  else if r = 2 ∧ (f = 2 ∨ f = 3) then "Hibernating"
  else if (r = 1 ∧ (f = 1 ∨ f = 2 ∨ f = 3)) ∨ (r = 2 ∧ f = 1) then "Lost"
  else ""

/-! ### Concrete inputs used by witnesses and counterexamples -/

/-- One line item at midnight of the given day. -/
def mkRow (c o : String) (day : Int) (p : ℚ) : OrderRow :=
  ⟨c, o, day * 86400, p⟩

/-- Five distinct customers, one order each on days 0..4: recencies
5,4,3,2,1 — all distinct. -/
def exA : List OrderRow :=
  [mkRow "c1" "o1" 0 10, mkRow "c2" "o2" 1 20, mkRow "c3" "o3" 2 30,
   mkRow "c4" "o4" 3 40, mkRow "c5" "o5" 4 1000]

/-- Three distinct customers with frequencies 1,2,3 and recencies 1,2,3. -/
def exB : List OrderRow :=
  [mkRow "c1" "oB1" 2 5, mkRow "c2" "oB2" 1 5, mkRow "c2" "oB3" 1 5,
   mkRow "c3" "oB4" 0 5, mkRow "c3" "oB5" 0 5, mkRow "c3" "oB6" 0 5]

/-- Four distinct customers, one order each on days 0..3: recencies
4,3,2,1 — all distinct. -/
def ex4 : List OrderRow :=
  [mkRow "d1" "p1" 0 1, mkRow "d2" "p2" 1 1, mkRow "d3" "p3" 2 1,
   mkRow "d4" "p4" 3 1]

/-- Five distinct customers who all purchased on the same day: all five
recencies are equal. -/
def ex5ties : List OrderRow :=
  [mkRow "e1" "q1" 0 1, mkRow "e2" "q2" 0 1, mkRow "e3" "q3" 0 1,
   mkRow "e4" "q4" 0 1, mkRow "e5" "q5" 0 1]

/-- Ten distinct customers with recencies 1,2,3,4,5,5,5,6,7,8 (a tie at
recency 5). -/
def ex10 : List OrderRow :=
  [mkRow "t0" "u0" 7 1, mkRow "t1" "u1" 6 1, mkRow "t2" "u2" 5 1,
   mkRow "t3" "u3" 4 1, mkRow "t4" "u4" 3 1, mkRow "t5" "u5" 3 1,
   mkRow "t6" "u6" 3 1, mkRow "t7" "u7" 2 1, mkRow "t8" "u8" 1 1,
   mkRow "t9" "u9" 0 1]

/-- Number of returned customers with the given `r_score` (0 when the run
fails). -/
def rScoreCountOf (df : List OrderRow) (s : Nat) : Nat :=
  match computeRFM df with
  | some (rows, _) => rows.countP (fun row => decide (row.r_score = s))
  | none => 0

/-! ### Generic list lemmas -/

theorem getD_map_of_lt {α β : Type} (l : List α) (f : α → β) (i : Nat)
    (h : i < l.length) (d : α) (d' : β) :
    (l.map f).getD i d' = f (l.getD i d) := by
  rw [List.getD_eq_getElem _ _ (by simpa using h), List.getD_eq_getElem _ _ h,
    List.getElem_map]

theorem countP_eq_countP_range {α : Type} (l : List α) (p : α → Bool) (d : α) :
    l.countP p = (List.range l.length).countP (fun j => p (l.getD j d)) := by
  induction l with
  | nil => rfl
  | cons a t ih =>
    rw [List.countP_cons, List.length_cons, List.range_succ_eq_map,
      List.countP_cons, List.countP_map]
    simp only [List.getD_cons_zero, List.getD_cons_succ, Function.comp_def]
    rw [ih]

theorem range_map_getD {α β : Type} (l : List α) (f : α → β) (d : α) :
    (List.range l.length).map (fun i => f (l.getD i d)) = l.map f := by
  induction l with
  | nil => rfl
  | cons a t ih =>
    rw [List.length_cons, List.range_succ_eq_map, List.map_cons, List.map_map]
    simp only [List.getD_cons_zero, List.getD_cons_succ, Function.comp_def]
    rw [ih, List.map_cons]

theorem countP_eq_ite_of_nodup {κ : Type} [DecidableEq κ] (ks : List κ)
    (hnd : ks.Nodup) (c : κ) :
    ks.countP (fun x => decide (x = c)) = if c ∈ ks then 1 else 0 := by
  induction ks with
  | nil => simp
  | cons k t ih =>
    rcases List.nodup_cons.mp hnd with ⟨hk, ht⟩
    rw [List.countP_cons]
    by_cases h : k = c
    · subst h
      have h0 : t.countP (fun x => decide (x = k)) = 0 :=
        List.countP_eq_zero.mpr (fun x hx => by
          simp only [decide_eq_true_eq]
          exact fun hxk => hk (hxk ▸ hx))
      simp [h0]
    · have hmem : (c ∈ k :: t) ↔ (c ∈ t) := by
        constructor
        · intro hc
          rcases List.mem_cons.mp hc with rfl | hc
          · exact absurd rfl h
          · exact hc
        · exact fun hc => List.mem_cons_of_mem k hc
      rw [ih ht]
      simp only [decide_eq_true_eq, h, if_false, add_zero]
      by_cases hc : c ∈ t
      · rw [if_pos hc, if_pos (hmem.mpr hc)]
      · rw [if_neg hc, if_neg (fun hx => hc (hmem.mp hx))]

theorem sum_map_add_distrib {α : Type} (l : List α) (f g : α → ℚ) :
    (l.map (fun x => f x + g x)).sum = (l.map f).sum + (l.map g).sum := by
  induction l with
  | nil => simp
  | cons a t ih => simp only [List.map_cons, List.sum_cons, ih]; ring

theorem sum_map_indicator {κ : Type} [DecidableEq κ] (ks : List κ)
    (hnd : ks.Nodup) (c : κ) (hc : c ∈ ks) (x : ℚ) :
    (ks.map (fun k => if c = k then x else 0)).sum = x := by
  induction ks with
  | nil => cases hc
  | cons k t ih =>
    rcases List.nodup_cons.mp hnd with ⟨hk, ht⟩
    rw [List.map_cons, List.sum_cons]
    by_cases h : c = k
    · rw [if_pos h]
      have hct : c ∉ t := fun hmem => hk (by rw [← h]; exact hmem)
      have h0 : (t.map (fun k' => if c = k' then x else 0)).sum = 0 := by
        apply List.sum_eq_zero
        intro y hy
        rcases List.mem_map.mp hy with ⟨k', hk', hval⟩
        have hne : c ≠ k' := fun hh => hct (by rw [hh]; exact hk')
        rw [if_neg hne] at hval
        exact hval.symm
      rw [h0, add_zero]
    · have hct : c ∈ t := by
        rcases List.mem_cons.mp hc with h' | h'
        · exact absurd h' h
        · exact h'
      rw [if_neg h, ih ht hct, zero_add]

theorem sum_partition {α κ : Type} [DecidableEq κ] (l : List α) (key : α → κ)
    (val : α → ℚ) (ks : List κ) (hnd : ks.Nodup)
    (hcov : ∀ a ∈ l, key a ∈ ks) :
    (ks.map (fun k =>
      ((l.filter (fun a => decide (key a = k))).map val).sum)).sum
      = (l.map val).sum := by
  induction l with
  | nil => simp
  | cons a t ih =>
    have hterm : (fun k =>
        (((a :: t).filter (fun x => decide (key x = k))).map val).sum)
        = (fun k => (if key a = k then val a else 0)
            + ((t.filter (fun x => decide (key x = k))).map val).sum) := by
      funext k
      rw [List.filter_cons]
      by_cases h : key a = k
      · simp [h]
      · simp [h]
    rw [hterm, sum_map_add_distrib,
      sum_map_indicator ks hnd (key a) (hcov a (List.mem_cons_self a t)),
      ih (fun x hx => hcov x (List.mem_cons_of_mem a hx)), List.map_cons,
      List.sum_cons]

/-! ### Maximum of an integer list -/

theorem foldl_max_init_or_mem :
    ∀ (t : List Int) (a : Int), t.foldl max a = a ∨ t.foldl max a ∈ t := by
  intro t
  induction t with
  | nil => exact fun a => Or.inl rfl
  | cons b t ih =>
    intro a
    rcases ih (max a b) with h | h
    · rcases max_choice a b with hm | hm
      · exact Or.inl (by rw [List.foldl_cons, h, hm])
      · exact Or.inr (by rw [List.foldl_cons, h, hm]; exact List.mem_cons_self b t)
    · exact Or.inr (List.mem_cons_of_mem b h)

theorem le_foldl_max :
    ∀ (t : List Int) (a x : Int), x = a ∨ x ∈ t → x ≤ t.foldl max a := by
  intro t
  induction t with
  | nil =>
    rintro a x (rfl | h)
    · exact le_refl x
    · cases h
  | cons b t ih =>
    rintro a x (rfl | h)
    · exact le_trans (le_max_left x b) (ih (max x b) _ (Or.inl rfl))
    · rcases List.mem_cons.mp h with rfl | hx
      · exact le_trans (le_max_right a x) (ih (max a x) _ (Or.inl rfl))
      · exact ih (max a b) x (Or.inr hx)

theorem listMax_mem (l : List Int) (h : l ≠ []) : listMax l ∈ l := by
  match l with
  | [] => exact absurd rfl h
  | a :: t =>
    show t.foldl max a ∈ a :: t
    rcases foldl_max_init_or_mem t a with h' | h'
    · rw [h']
      exact List.mem_cons_self a t
    · exact List.mem_cons_of_mem a h'

theorem le_listMax (l : List Int) (x : Int) (h : x ∈ l) : x ≤ listMax l := by
  match l with
  | a :: t =>
    show x ≤ t.foldl max a
    rcases List.mem_cons.mp h with rfl | hx
    · exact le_foldl_max t x x (Or.inl rfl)
    · exact le_foldl_max t a x (Or.inr hx)

/-! ### The ascending sort of the binned values -/

theorem sortInts_perm (l : List Int) : List.Perm (sortInts l) l :=
  List.perm_insertionSort _ l

theorem sortInts_length (l : List Int) : (sortInts l).length = l.length :=
  (sortInts_perm l).length_eq

theorem sortInts_strict_getD (l : List Int) (hnd : l.Nodup) (a b : Nat)
    (hab : a < b) (hb : b < (sortInts l).length) :
    (sortInts l).getD a 0 < (sortInts l).getD b 0 := by
  have hnd' : (sortInts l).Nodup := (sortInts_perm l).nodup_iff.mpr hnd
  have hs : List.Pairwise (· ≤ ·) (sortInts l) :=
    List.sorted_insertionSort (· ≤ ·) l
  have ha : a < (sortInts l).length := lt_trans hab hb
  rw [List.getD_eq_getElem _ _ ha, List.getD_eq_getElem _ _ hb]
  exact lt_of_le_of_ne (List.pairwise_iff_getElem.mp hs a b ha hb hab)
    (List.pairwise_iff_getElem.mp hnd' a b ha hb hab)

theorem sortInts_mono_getD (l : List Int) (hnd : l.Nodup) (a b : Nat)
    (hab : a ≤ b) (hb : b < (sortInts l).length) :
    (sortInts l).getD a 0 ≤ (sortInts l).getD b 0 := by
  rcases lt_or_eq_of_le hab with h | h
  · exact le_of_lt (sortInts_strict_getD l hnd a b h hb)
  · rw [h]

/-! ### Count lemmas for ranks and take-prefixes -/

theorem countP_take_le {α : Type} (l : List α) (p : α → Bool) (i j : Nat)
    (hij : i ≤ j) : (l.take i).countP p ≤ (l.take j).countP p := by
  have h : l.take i = (l.take j).take i := by
    rw [List.take_take, Nat.min_eq_left hij]
  rw [h]
  exact (List.take_sublist _ _).countP_le _

theorem countP_take_succ {α : Type} (l : List α) (p : α → Bool) (i : Nat)
    (h : i < l.length) (d : α) :
    (l.take (i + 1)).countP p
      = (l.take i).countP p + (if p (l.getD i d) then 1 else 0) := by
  rw [List.take_succ, List.countP_append, List.getElem?_eq_getElem h,
    List.getD_eq_getElem _ _ h]
  simp [List.countP_cons]

theorem countP_lt_add_countP_eq (xs : List Nat) (v : Nat) :
    xs.countP (fun y => decide (y < v)) + xs.countP (fun y => decide (y = v))
      = xs.countP (fun y => decide (y ≤ v)) := by
  induction xs with
  | nil => rfl
  | cons a t ih =>
    simp only [List.countP_cons, decide_eq_true_eq]
    split_ifs <;> omega

/-! ### Lemmas about `rankFirst` -/

theorem getD_range (n i : Nat) (h : i < n) : (List.range n).getD i 0 = i := by
  rw [List.getD_eq_getElem _ _ (by simpa using h), List.getElem_range]

theorem rankFirst_length (xs : List Nat) : (rankFirst xs).length = xs.length := by
  simp [rankFirst]

theorem rankFirst_getD (xs : List Nat) (i : Nat) (h : i < xs.length) :
    (rankFirst xs).getD i 0
      = 1 + xs.countP (fun y => decide (y < xs.getD i 0))
          + (xs.take i).countP (fun y => decide (y = xs.getD i 0)) := by
  rw [rankFirst, getD_map_of_lt (List.range xs.length) _ i (by simpa using h) 0 0,
    getD_range xs.length i h]

theorem rank_lt_of_val_lt (xs : List Nat) (i j : Nat) (hi : i < xs.length)
    (hj : j < xs.length) (hv : xs.getD i 0 < xs.getD j 0) :
    (rankFirst xs).getD i 0 < (rankFirst xs).getD j 0 := by
  rw [rankFirst_getD xs i hi, rankFirst_getD xs j hj]
  have h2 : (xs.take (i + 1)).countP (fun y => decide (y = xs.getD i 0))
      = (xs.take i).countP (fun y => decide (y = xs.getD i 0)) + 1 := by
    rw [countP_take_succ xs _ i hi 0]
    simp
  have h3 : (xs.take (i + 1)).countP (fun y => decide (y = xs.getD i 0))
      ≤ xs.countP (fun y => decide (y = xs.getD i 0)) :=
    (List.take_sublist _ _).countP_le _
  have h4 := countP_lt_add_countP_eq xs (xs.getD i 0)
  have h5 : xs.countP (fun y => decide (y ≤ xs.getD i 0))
      ≤ xs.countP (fun y => decide (y < xs.getD j 0)) := by
    apply List.countP_mono_left
    intro y _ hy
    simp only [decide_eq_true_eq] at hy ⊢
    omega
  omega

theorem rank_lt_of_eq_of_idx_lt (xs : List Nat) (i j : Nat) (hij : i < j)
    (hj : j < xs.length) (hv : xs.getD i 0 = xs.getD j 0) :
    (rankFirst xs).getD i 0 < (rankFirst xs).getD j 0 := by
  have hi : i < xs.length := lt_trans hij hj
  rw [rankFirst_getD xs i hi, rankFirst_getD xs j hj, ← hv]
  have h2 : (xs.take (i + 1)).countP (fun y => decide (y = xs.getD i 0))
      = (xs.take i).countP (fun y => decide (y = xs.getD i 0)) + 1 := by
    rw [countP_take_succ xs _ i hi 0]
    simp
  have h3 : (xs.take (i + 1)).countP (fun y => decide (y = xs.getD i 0))
      ≤ (xs.take j).countP (fun y => decide (y = xs.getD i 0)) :=
    countP_take_le xs _ (i + 1) j hij
  omega

theorem rankFirst_bounds (xs : List Nat) (i : Nat) (hi : i < xs.length) :
    1 ≤ (rankFirst xs).getD i 0 ∧ (rankFirst xs).getD i 0 ≤ xs.length := by
  rw [rankFirst_getD xs i hi]
  refine ⟨by omega, ?_⟩
  have h2 : (xs.take (i + 1)).countP (fun y => decide (y = xs.getD i 0))
      = (xs.take i).countP (fun y => decide (y = xs.getD i 0)) + 1 := by
    rw [countP_take_succ xs _ i hi 0]
    simp
  have h3 : (xs.take (i + 1)).countP (fun y => decide (y = xs.getD i 0))
      ≤ xs.countP (fun y => decide (y = xs.getD i 0)) :=
    (List.take_sublist _ _).countP_le _
  have h4 := countP_lt_add_countP_eq xs (xs.getD i 0)
  have h6 : xs.countP (fun y => decide (y ≤ xs.getD i 0)) ≤ xs.length :=
    List.countP_le_length _
  omega

theorem rankFirst_nodup (xs : List Nat) : (rankFirst xs).Nodup := by
  have key : ∀ a b : Nat, a < b → b < xs.length →
      (rankFirst xs).getD a 0 ≠ (rankFirst xs).getD b 0 := by
    intro a b hab hb
    have ha : a < xs.length := lt_trans hab hb
    rcases Nat.lt_trichotomy (xs.getD a 0) (xs.getD b 0) with hv | hv | hv
    · exact Nat.ne_of_lt (rank_lt_of_val_lt xs a b ha hb hv)
    · exact Nat.ne_of_lt (rank_lt_of_eq_of_idx_lt xs a b hab hb hv)
    · exact Nat.ne_of_gt (rank_lt_of_val_lt xs b a hb ha hv)
  rw [List.Nodup]
  rw [List.pairwise_iff_getElem]
  intro a b ha hb hab
  have ha' : a < xs.length := by rwa [rankFirst_length] at ha
  have hb' : b < xs.length := by rwa [rankFirst_length] at hb
  have := key a b hab hb'
  rwa [List.getD_eq_getElem _ _ ha, List.getD_eq_getElem _ _ hb] at this

theorem rankFirst_mem_bounds (xs : List Nat) (r : Nat) (hr : r ∈ rankFirst xs) :
    1 ≤ r ∧ r ≤ xs.length := by
  rcases List.getElem_of_mem hr with ⟨i, hi, heq⟩
  have hi' : i < xs.length := by rwa [rankFirst_length] at hi
  have := rankFirst_bounds xs i hi'
  rwa [List.getD_eq_getElem _ _ hi, heq] at this

theorem rankFirst_perm_range (xs : List Nat) :
    List.Perm (rankFirst xs) (List.range' 1 xs.length) := by
  have hsub : rankFirst xs ⊆ List.range' 1 xs.length := by
    intro r hr
    have := rankFirst_mem_bounds xs r hr
    rw [List.mem_range'_1]
    omega
  refine (List.subperm_of_subset (rankFirst_nodup xs) hsub).perm_of_length_le ?_
  rw [List.length_range', rankFirst_length]

/-! ### The quantile edges against a strictly sorted value list -/

/-- Key characterization: for a strictly increasing sorted list, the scaled
`k`-th quantile edge lies strictly below the element at sorted position `j`
iff the virtual index `k*(n-1)/5` lies strictly below `j`. -/
theorem quantileNum_lt_iff (s : List Int)
    (hs : ∀ a b, a < b → b < s.length → s.getD a 0 < s.getD b 0)
    (k j : Nat) (hj : j < s.length) :
    quantileNum s k < 5 * s.getD j 0 ↔ k * (s.length - 1) < 5 * j := by
  have hmono : ∀ a b, a ≤ b → b < s.length → s.getD a 0 ≤ s.getD b 0 := by
    intro a b hab hb
    rcases lt_or_eq_of_le hab with h | h
    · exact le_of_lt (hs a b h hb)
    · rw [h]
  rw [quantileNum]
  by_cases hbr : k * (s.length - 1) / 5 + 1 < s.length
  · rw [if_pos hbr]
    by_cases hg : k * (s.length - 1) % 5 = 0
    · rw [hg]
      simp only [Nat.cast_zero, zero_mul, add_zero]
      constructor
      · intro h
        have hlt : s.getD (k * (s.length - 1) / 5) 0 < s.getD j 0 := by omega
        by_contra hcon
        have hjle : j ≤ k * (s.length - 1) / 5 := by omega
        have := hmono j (k * (s.length - 1) / 5) hjle (by omega)
        omega
      · intro h
        have hlt : k * (s.length - 1) / 5 < j := by omega
        have := hs (k * (s.length - 1) / 5) j hlt hj
        omega
    · have hstep : s.getD (k * (s.length - 1) / 5) 0
          < s.getD (k * (s.length - 1) / 5 + 1) 0 :=
        hs _ _ (Nat.lt_succ_self _) hbr
      have hcast1 : (1 : Int) ≤ ((k * (s.length - 1) % 5 : Nat) : Int) := by
        exact_mod_cast Nat.one_le_iff_ne_zero.mpr hg
      have hcast4 : ((k * (s.length - 1) % 5 : Nat) : Int) ≤ 4 := by
        exact_mod_cast Nat.le_of_lt_succ (Nat.lt_of_lt_of_le
          (Nat.mod_lt _ (by norm_num)) (by norm_num))
      have hdiffpos : (0 : Int) < s.getD (k * (s.length - 1) / 5 + 1) 0
          - s.getD (k * (s.length - 1) / 5) 0 := by omega
      have hkey1 : (0 : Int) < ((k * (s.length - 1) % 5 : Nat) : Int)
          * (s.getD (k * (s.length - 1) / 5 + 1) 0
              - s.getD (k * (s.length - 1) / 5) 0) :=
        mul_pos (by omega) hdiffpos
      have hkey2 : ((k * (s.length - 1) % 5 : Nat) : Int)
          * (s.getD (k * (s.length - 1) / 5 + 1) 0
              - s.getD (k * (s.length - 1) / 5) 0)
          < 5 * (s.getD (k * (s.length - 1) / 5 + 1) 0
              - s.getD (k * (s.length - 1) / 5) 0) := by
        apply mul_lt_mul_of_pos_right _ hdiffpos
        omega
      constructor
      · intro h
        by_contra hcon
        have hjle : j ≤ k * (s.length - 1) / 5 := by omega
        have := hmono j (k * (s.length - 1) / 5) hjle (by omega)
        linarith
      · intro h
        have hij1 : k * (s.length - 1) / 5 + 1 ≤ j := by omega
        have := hmono (k * (s.length - 1) / 5 + 1) j hij1 hj
        linarith
  · rw [if_neg hbr]
    have hj1 : j ≤ s.length - 1 := by omega
    have hle := hmono j (s.length - 1) hj1 (by omega)
    constructor
    · intro h
      exact absurd h (by omega)
    · intro h
      exfalso
      omega

theorem binOf_qcutEdges_eq_tau (values : List Int) (hnd : values.Nodup)
    (j : Nat) (hj : j < values.length) :
    binOf (qcutEdges values) ((sortInts values).getD j 0)
      = tau values.length j := by
  have hnd' : (sortInts values).Nodup := (sortInts_perm values).nodup_iff.mpr hnd
  have hlen : (sortInts values).length = values.length := sortInts_length values
  have hs : ∀ a b, a < b → b < (sortInts values).length →
      (sortInts values).getD a 0 < (sortInts values).getD b 0 :=
    fun a b hab hb => sortInts_strict_getD values hnd a b hab hb
  have hedges : ((qcutEdges values).drop 1).take 4
      = [quantileNum (sortInts values) 1, quantileNum (sortInts values) 2,
         quantileNum (sortInts values) 3, quantileNum (sortInts values) 4] := rfl
  have hj' : j < (sortInts values).length := by rwa [hlen]
  have h1 := quantileNum_lt_iff (sortInts values) hs 1 j hj'
  have h2 := quantileNum_lt_iff (sortInts values) hs 2 j hj'
  have h3 := quantileNum_lt_iff (sortInts values) hs 3 j hj'
  have h4 := quantileNum_lt_iff (sortInts values) hs 4 j hj'
  rw [hlen] at h1 h2 h3 h4
  rw [binOf, hedges]
  simp only [List.countP_cons, List.countP_nil, decide_eq_true_eq]
  rw [tau]
  simp only [h1, h2, h3, h4]
  split_ifs <;> omega

/-! ### Bucket sizes of the abstract bins -/

theorem countP_range_lt5 (n c : Nat) :
    (List.range n).countP (fun j => decide (c < 5 * j)) = n - (c / 5 + 1) := by
  induction n with
  | zero => simp
  | succ n ih =>
    rw [List.range_succ, List.countP_append, ih]
    by_cases h : c < 5 * n
    · simp only [List.countP_cons, List.countP_nil, decide_eq_true_eq, h,
        if_true]
      omega
    · simp only [List.countP_cons, List.countP_nil, decide_eq_true_eq, h,
        if_false]
      omega

theorem countP_range_nlt5 (n c : Nat) :
    (List.range n).countP (fun j => decide (¬ (c < 5 * j)))
      = n - (n - (c / 5 + 1)) := by
  induction n with
  | zero => simp
  | succ n ih =>
    rw [List.range_succ, List.countP_append, ih]
    by_cases h : c < 5 * n
    · simp only [List.countP_cons, List.countP_nil, decide_eq_true_eq, h,
        not_true, if_false, decide_eq_true_eq]
      omega
    · simp only [List.countP_cons, List.countP_nil, decide_eq_true_eq, h,
        not_false_iff, if_true, decide_eq_true_eq]
      omega

theorem countP_range_band (n c1 c2 : Nat) (h12 : c1 ≤ c2) :
    (List.range n).countP (fun j => decide (c1 < 5 * j ∧ ¬ (c2 < 5 * j)))
      = (n - (c1 / 5 + 1)) - (n - (c2 / 5 + 1)) := by
  induction n with
  | zero => simp
  | succ n ih =>
    rw [List.range_succ, List.countP_append, ih]
    simp only [List.countP_cons, List.countP_nil, decide_eq_true_eq]
    by_cases h1 : c1 < 5 * n
    · by_cases h2 : c2 < 5 * n
      · simp only [h1, h2, not_true, and_false, if_false]
        omega
      · simp only [h1, h2, not_false_iff, and_true, if_true]
        omega
    · simp only [h1, false_and, if_false]
      omega

theorem tau_eq_zero_iff (n j : Nat) :
    tau n j = 0 ↔ ¬ (1 * (n - 1) < 5 * j) := by
  rw [tau]
  split_ifs <;> constructor <;> intro h <;> first | exact h.elim | omega

theorem tau_eq_one_iff (n j : Nat) :
    tau n j = 1 ↔ (1 * (n - 1) < 5 * j ∧ ¬ (2 * (n - 1) < 5 * j)) := by
  rw [tau]
  split_ifs <;> constructor <;> intro h <;> first | exact h.elim | omega

theorem tau_eq_two_iff (n j : Nat) :
    tau n j = 2 ↔ (2 * (n - 1) < 5 * j ∧ ¬ (3 * (n - 1) < 5 * j)) := by
  rw [tau]
  split_ifs <;> constructor <;> intro h <;> first | exact h.elim | omega

theorem tau_eq_three_iff (n j : Nat) :
    tau n j = 3 ↔ (3 * (n - 1) < 5 * j ∧ ¬ (4 * (n - 1) < 5 * j)) := by
  rw [tau]
  split_ifs <;> constructor <;> intro h <;> first | exact h.elim | omega

theorem tau_eq_four_iff (n j : Nat) :
    tau n j = 4 ↔ 4 * (n - 1) < 5 * j := by
  rw [tau]
  split_ifs <;> constructor <;> intro h <;> first | exact h.elim | omega

theorem tau_count_bound (n : Nat) (hn : 5 ≤ n) (b : Nat) (hb : b ≤ 4) :
    (n - 1) / 5 ≤ (List.range n).countP (fun j => decide (tau n j = b))
      ∧ (List.range n).countP (fun j => decide (tau n j = b))
          ≤ (n - 1) / 5 + 1 := by
  interval_cases b
  · have hc : (List.range n).countP (fun j => decide (tau n j = 0))
        = (List.range n).countP (fun j => decide (¬ (1 * (n - 1) < 5 * j))) := by
      apply List.countP_congr
      intro j _
      simp only [decide_eq_true_eq]
      exact tau_eq_zero_iff n j
    rw [hc, countP_range_nlt5]
    omega
  · have hc : (List.range n).countP (fun j => decide (tau n j = 1))
        = (List.range n).countP (fun j =>
            decide (1 * (n - 1) < 5 * j ∧ ¬ (2 * (n - 1) < 5 * j))) := by
      apply List.countP_congr
      intro j _
      simp only [decide_eq_true_eq]
      exact tau_eq_one_iff n j
    rw [hc, countP_range_band n _ _ (by omega)]
    omega
  · have hc : (List.range n).countP (fun j => decide (tau n j = 2))
        = (List.range n).countP (fun j =>
            decide (2 * (n - 1) < 5 * j ∧ ¬ (3 * (n - 1) < 5 * j))) := by
      apply List.countP_congr
      intro j _
      simp only [decide_eq_true_eq]
      exact tau_eq_two_iff n j
    rw [hc, countP_range_band n _ _ (by omega)]
    omega
  · have hc : (List.range n).countP (fun j => decide (tau n j = 3))
        = (List.range n).countP (fun j =>
            decide (3 * (n - 1) < 5 * j ∧ ¬ (4 * (n - 1) < 5 * j))) := by
      apply List.countP_congr
      intro j _
      simp only [decide_eq_true_eq]
      exact tau_eq_three_iff n j
    rw [hc, countP_range_band n _ _ (by omega)]
    omega
  · have hc : (List.range n).countP (fun j => decide (tau n j = 4))
        = (List.range n).countP (fun j => decide (4 * (n - 1) < 5 * j)) := by
      apply List.countP_congr
      intro j _
      simp only [decide_eq_true_eq]
      exact tau_eq_four_iff n j
    rw [hc, countP_range_lt5]
    omega

/-- Customer counts per bin: counting over the (nodup) value list equals
counting the abstract bins over sorted positions. -/
theorem countP_bin_eq_countP_tau (values : List Int) (hnd : values.Nodup)
    (b : Nat) :
    values.countP (fun v => decide (binOf (qcutEdges values) v = b))
      = (List.range values.length).countP
          (fun j => decide (tau values.length j = b)) := by
  rw [← (sortInts_perm values).countP_eq]
  rw [countP_eq_countP_range (sortInts values) _ 0, sortInts_length]
  apply List.countP_congr
  intro j hj
  have hj' : j < values.length := List.mem_range.mp hj
  simp only [decide_eq_true_eq]
  rw [binOf_qcutEdges_eq_tau values hnd j hj']

/-! ### Bin and label basics -/

theorem binOf_le_four (edges : List Int) (v : Int) : binOf edges v ≤ 4 := by
  refine le_trans (List.countP_le_length _) ?_
  rw [List.length_take]
  exact Nat.min_le_left _ _

theorem binOf_mono (edges : List Int) (v w : Int) (hvw : v ≤ w) :
    binOf edges v ≤ binOf edges w := by
  apply List.countP_mono_left
  intro e _ he
  simp only [decide_eq_true_eq] at he ⊢
  omega

theorem rLabels_getD (b : Nat) (hb : b ≤ 4) : rLabels.getD b 0 = 5 - b := by
  interval_cases b <;> rfl

theorem fLabels_getD (b : Nat) (hb : b ≤ 4) : fLabels.getD b 0 = b + 1 := by
  interval_cases b <;> rfl

theorem getD_range_map {β : Type} (n : Nat) (f : Nat → β) (i : Nat)
    (hi : i < n) (d : β) : ((List.range n).map f).getD i d = f i := by
  rw [getD_map_of_lt _ f i (by simpa using hi) 0 d, getD_range n i hi]

/-! ### Success and structure of `qcut` -/

theorem qcut_inv (values : List Int) (labels : List Nat) (out : List Nat)
    (h : qcut values labels = some out) :
    values ≠ [] ∧ strictAsc (qcutEdges values) = true
      ∧ out = values.map
          (fun v => labels.getD (binOf (qcutEdges values) v) 0) := by
  rw [qcut] at h
  by_cases h1 : values.isEmpty = true
  · rw [if_pos h1] at h
    cases h
  · rw [if_neg h1] at h
    by_cases h2 : strictAsc (qcutEdges values) = true
    · rw [if_pos h2] at h
      refine ⟨?_, h2, (Option.some.inj h).symm⟩
      intro hne
      exact h1 (List.isEmpty_iff.mpr hne)
    · rw [if_neg h2] at h
      cases h

theorem getD_mono_of_strict (s : List Int)
    (hs : ∀ a b, a < b → b < s.length → s.getD a 0 < s.getD b 0)
    (a b : Nat) (hab : a ≤ b) (hb : b < s.length) :
    s.getD a 0 ≤ s.getD b 0 := by
  rcases lt_or_eq_of_le hab with h | h
  · exact le_of_lt (hs a b h hb)
  · rw [h]

/-- Strictly increasing data yields strictly increasing quantile edges
(so `pd.qcut` succeeds on distinct values). -/
theorem quantileNum_strict_succ (s : List Int)
    (hs : ∀ a b, a < b → b < s.length → s.getD a 0 < s.getD b 0)
    (hn : 2 ≤ s.length) (k : Nat) (hk : k ≤ 4) :
    quantileNum s k < quantileNum s (k + 1) := by
  have hmono := getD_mono_of_strict s hs
  have hd4 : k * (s.length - 1) ≤ 4 * (s.length - 1) :=
    Nat.mul_le_mul_right _ hk
  have hi : k * (s.length - 1) / 5 + 1 < s.length := by omega
  have hi2 : k * (s.length - 1) / 5 + 1 ≤ s.length - 1 := by omega
  have hstep : s.getD (k * (s.length - 1) / 5) 0
      < s.getD (k * (s.length - 1) / 5 + 1) 0 :=
    hs _ _ (Nat.lt_succ_self _) hi
  have hup : quantileNum s k < 5 * s.getD (k * (s.length - 1) / 5 + 1) 0 := by
    rw [quantileNum, if_pos hi]
    have hcast : ((k * (s.length - 1) % 5 : Nat) : Int) ≤ 4 := by
      exact_mod_cast Nat.le_of_lt_succ (Nat.mod_lt _ (by norm_num))
    have := mul_lt_mul_of_pos_right (show ((k * (s.length - 1) % 5 : Nat) : Int) < 5 by omega)
      (show (0 : Int) < s.getD (k * (s.length - 1) / 5 + 1) 0
          - s.getD (k * (s.length - 1) / 5) 0 by omega)
    linarith
  rw [quantileNum]
  conv_rhs => rw [quantileNum]
  rw [if_pos hi]
  by_cases hbr : (k + 1) * (s.length - 1) / 5 + 1 < s.length
  · rw [if_pos hbr]
    have hlow : 5 * s.getD ((k + 1) * (s.length - 1) / 5) 0
        ≤ quantileNum s (k + 1) := by
      rw [quantileNum, if_pos hbr]
      have hd : (0 : Int) ≤ s.getD ((k + 1) * (s.length - 1) / 5 + 1) 0
          - s.getD ((k + 1) * (s.length - 1) / 5) 0 := by
        have hx : s.getD ((k + 1) * (s.length - 1) / 5) 0
            < s.getD ((k + 1) * (s.length - 1) / 5 + 1) 0 :=
          hs _ _ (by omega) hbr
        omega
      have := mul_nonneg (show (0 : Int) ≤ (((k + 1) * (s.length - 1) % 5 : Nat) : Int)
        by positivity) hd
      linarith
    rw [quantileNum, if_pos hbr] at hlow
    by_cases hii : k * (s.length - 1) / 5 = (k + 1) * (s.length - 1) / 5
    · have hgg : k * (s.length - 1) % 5 < (k + 1) * (s.length - 1) % 5 := by
        have h1 : k * (s.length - 1) < (k + 1) * (s.length - 1) := by
          have : 1 ≤ s.length - 1 := by omega
          calc k * (s.length - 1) < k * (s.length - 1) + (s.length - 1) := by omega
            _ = (k + 1) * (s.length - 1) := by ring
        omega
      rw [← hii]
      have hgcast : ((k * (s.length - 1) % 5 : Nat) : Int)
          < (((k + 1) * (s.length - 1) % 5 : Nat) : Int) := by exact_mod_cast hgg
      have := mul_lt_mul_of_pos_right hgcast
        (show (0 : Int) < s.getD (k * (s.length - 1) / 5 + 1) 0
            - s.getD (k * (s.length - 1) / 5) 0 by omega)
      linarith
    · have hlt : k * (s.length - 1) / 5 < (k + 1) * (s.length - 1) / 5 := by
        have h1 : k * (s.length - 1) ≤ (k + 1) * (s.length - 1) := by
          apply Nat.mul_le_mul_right
          omega
        omega
      have hle : k * (s.length - 1) / 5 + 1 ≤ (k + 1) * (s.length - 1) / 5 := hlt
      have h5 : 5 * s.getD (k * (s.length - 1) / 5 + 1) 0
          ≤ 5 * s.getD ((k + 1) * (s.length - 1) / 5) 0 := by
        have := hmono _ _ hle (by omega)
        omega
      rw [quantileNum, if_pos hi] at hup
      linarith
  · rw [if_neg hbr]
    have h5 : 5 * s.getD (k * (s.length - 1) / 5 + 1) 0
        ≤ 5 * s.getD (s.length - 1) 0 := by
      have := hmono _ _ hi2 (by omega)
      omega
    rw [quantileNum, if_pos hi] at hup
    linarith

theorem strictAsc_of_forall_succ (l : List Int)
    (h : ∀ i, i + 1 < l.length → l.getD i 0 < l.getD (i + 1) 0) :
    strictAsc l = true := by
  induction l with
  | nil => rfl
  | cons a t ih =>
    cases t with
    | nil => rfl
    | cons b t' =>
      show (decide (a < b) && strictAsc (b :: t')) = true
      rw [Bool.and_eq_true]
      refine ⟨decide_eq_true ?_, ih ?_⟩
      · have := h 0 (by simp)
        simpa using this
      · intro i hi
        have hlen : i + 1 + 1 < (a :: b :: t').length := by
          simp only [List.length_cons] at hi ⊢
          omega
        have := h (i + 1) hlen
        simpa using this

theorem strictAsc_qcutEdges_of_nodup (values : List Int) (hnd : values.Nodup)
    (h2 : 2 ≤ values.length) : strictAsc (qcutEdges values) = true := by
  apply strictAsc_of_forall_succ
  intro i hi
  have hlen : (qcutEdges values).length = 6 := by simp [qcutEdges]
  have hi4 : i ≤ 4 := by omega
  rw [qcutEdges, getD_range_map 6 _ i (by omega) 0,
    getD_range_map 6 _ (i + 1) (by omega) 0]
  exact quantileNum_strict_succ (sortInts values)
    (fun a b hab hb => sortInts_strict_getD values hnd a b hab hb)
    (by rw [sortInts_length]; exact h2) i hi4

theorem qcut_some_of_nodup (values : List Int) (labels : List Nat)
    (hnd : values.Nodup) (h2 : 2 ≤ values.length) :
    qcut values labels = some (values.map
      (fun v => labels.getD (binOf (qcutEdges values) v) 0)) := by
  rw [qcut, if_neg (fun h => by
      rw [List.isEmpty_iff.mp h] at h2
      exact absurd h2 (by norm_num)),
    if_pos (strictAsc_qcutEdges_of_nodup values hnd h2)]

/-! ### Structure of a successful `computeRFM` run -/

theorem computeRFM_inv (df : List OrderRow) (rows : List ScoredRow)
    (rev : List (String × ℚ)) (h : computeRFM df = some (rows, rev)) :
    ∃ rs fs, qcut (recVals df) rLabels = some rs
      ∧ qcut (rankVals df) fLabels = some fs
      ∧ rows = (List.range (rfm_base df).length).map
          (fun i => mkScored ((rfm_base df).getD i dfltRFM) (rs.getD i 0)
            (fs.getD i 0))
      ∧ rev = revenuePerType rows := by
  unfold computeRFM at h
  cases hr : qcut (recVals df) rLabels with
  | none =>
    rw [hr] at h
    cases h
  | some rs =>
    cases hf : qcut (rankVals df) fLabels with
    | none =>
      rw [hr, hf] at h
      cases h
    | some fs =>
      rw [hr, hf] at h
      have h' := Option.some.inj h
      have hR := congrArg Prod.fst h'
      have hV := congrArg Prod.snd h'
      simp only at hR hV
      refine ⟨rs, fs, rfl, rfl, hR.symm, ?_⟩
      rw [← hV, hR]

/-! ### Facts about the aggregation stage -/

theorem customersOf_perm (df : List OrderRow) :
    List.Perm (customersOf df) ((df.map (·.customer_unique_id)).dedup) :=
  List.perm_insertionSort _ _

theorem customersOf_nodup (df : List OrderRow) : (customersOf df).Nodup :=
  (customersOf_perm df).nodup_iff.mpr (List.nodup_dedup _)

theorem mem_customersOf (df : List OrderRow) (c : String) :
    c ∈ customersOf df ↔ c ∈ df.map (·.customer_unique_id) := by
  rw [(customersOf_perm df).mem_iff, List.mem_dedup]

theorem customersOf_length (df : List OrderRow) :
    (customersOf df).length = ((df.map (·.customer_unique_id)).dedup).length :=
  (customersOf_perm df).length_eq

theorem mem_rowsOf (df : List OrderRow) (c : String) (r : OrderRow) :
    r ∈ rowsOf df c ↔ r ∈ df ∧ r.customer_unique_id = c := by
  rw [rowsOf, List.mem_filter]
  simp

theorem rowsOf_ne_nil (df : List OrderRow) (c : String)
    (hc : c ∈ df.map (·.customer_unique_id)) : rowsOf df c ≠ [] := by
  rcases List.mem_map.mp hc with ⟨r, hr, hid⟩
  intro hnil
  have : r ∈ rowsOf df c := (mem_rowsOf df c r).mpr ⟨hr, hid⟩
  rw [hnil] at this
  cases this

theorem custMax_le_maxTS (df : List OrderRow) (c : String)
    (hc : c ∈ df.map (·.customer_unique_id)) :
    listMax ((rowsOf df c).map (·.order_purchase_timestamp)) ≤ maxTS df := by
  have hne : (rowsOf df c).map (·.order_purchase_timestamp) ≠ [] := by
    intro h
    exact rowsOf_ne_nil df c hc (List.map_eq_nil_iff.mp h)
  rcases List.mem_map.mp (listMax_mem _ hne) with ⟨r, hr, heq⟩
  rw [← heq]
  exact le_listMax _ _
    (List.mem_map_of_mem _ ((mem_rowsOf df c r).mp hr).1)

theorem recencyOf_ge_one (df : List OrderRow) (c : String)
    (hc : c ∈ df.map (·.customer_unique_id)) : 1 ≤ recencyOf df c := by
  have h := custMax_le_maxTS df c hc
  simp only [recencyOf, maxDate, secondsPerDay]
  omega

theorem frequencyOf_ge_one (df : List OrderRow) (c : String)
    (hc : c ∈ df.map (·.customer_unique_id)) : 1 ≤ frequencyOf df c := by
  rw [frequencyOf]
  rcases List.mem_map.mp hc with ⟨r, hr, hid⟩
  have hmem : r.order_id ∈ ((rowsOf df c).map (·.order_id)).dedup := by
    rw [List.mem_dedup]
    exact List.mem_map_of_mem _ ((mem_rowsOf df c r).mpr ⟨hr, hid⟩)
  exact List.length_pos_of_mem hmem

theorem monetaryOf_nonneg (df : List OrderRow) (c : String)
    (hp : ∀ r ∈ df, 0 ≤ r.price) : 0 ≤ monetaryOf df c := by
  rw [monetaryOf]
  apply List.sum_nonneg
  intro x hx
  rcases List.mem_map.mp hx with ⟨r, hr, heq⟩
  rw [← heq]
  exact hp r ((mem_rowsOf df c r).mp hr).1

theorem rfm_base_length (df : List OrderRow) :
    (rfm_base df).length = (customersOf df).length := by
  simp [rfm_base]

theorem recVals_length (df : List OrderRow) :
    (recVals df).length = (rfm_base df).length := by
  simp [recVals]

theorem rankVals_length (df : List OrderRow) :
    (rankVals df).length = (rfm_base df).length := by
  rw [rankVals, List.length_map, rankFirst_length, List.length_map]

theorem rankVals_nodup (df : List OrderRow) : (rankVals df).Nodup := by
  rw [rankVals]
  exact List.Nodup.map (fun a b h => Int.ofNat.inj h) (rankFirst_nodup _)

theorem getD_mem_of_lt {α : Type} (l : List α) (i : Nat) (h : i < l.length)
    (d : α) : l.getD i d ∈ l := by
  rw [List.getD_eq_getElem _ _ h]
  exact List.getElem_mem _

theorem computeRFM_eq_some_resultOf (df : List OrderRow)
    (h : (computeRFM df).isSome = true) :
    computeRFM df = some (resultOf df) := by
  rw [resultOf]
  cases hc : computeRFM df
  · rw [hc] at h
    cases h
  · rfl

/-- Every output row is a scored copy of some base row, with both scores in
`{1,...,5}`. -/
theorem rows_score_bounds (df : List OrderRow) (rows : List ScoredRow)
    (rev : List (String × ℚ)) (h : computeRFM df = some (rows, rev)) :
    ∀ row ∈ rows, ∃ b rr ff, b ∈ rfm_base df ∧ row = mkScored b rr ff
      ∧ 1 ≤ rr ∧ rr ≤ 5 ∧ 1 ≤ ff ∧ ff ≤ 5 := by
  rcases computeRFM_inv df rows rev h with ⟨rs, fs, hr, hf, hrows, _⟩
  rcases qcut_inv _ _ _ hr with ⟨_, _, hrs⟩
  rcases qcut_inv _ _ _ hf with ⟨_, _, hfs⟩
  intro row hrow
  rw [hrows] at hrow
  rcases List.mem_map.mp hrow with ⟨i, hi, heq⟩
  have hin : i < (rfm_base df).length := List.mem_range.mp hi
  have hrsi : rs.getD i 0 = rLabels.getD
      (binOf (qcutEdges (recVals df)) ((recVals df).getD i 0)) 0 := by
    rw [hrs, getD_map_of_lt (recVals df) _ i (by rw [recVals_length]; exact hin) 0 0]
  have hfsi : fs.getD i 0 = fLabels.getD
      (binOf (qcutEdges (rankVals df)) ((rankVals df).getD i 0)) 0 := by
    rw [hfs, getD_map_of_lt (rankVals df) _ i (by rw [rankVals_length]; exact hin) 0 0]
  have hb1 := binOf_le_four (qcutEdges (recVals df)) ((recVals df).getD i 0)
  have hb2 := binOf_le_four (qcutEdges (rankVals df)) ((rankVals df).getD i 0)
  refine ⟨(rfm_base df).getD i dfltRFM, rs.getD i 0, fs.getD i 0,
    getD_mem_of_lt _ i hin _, heq.symm, ?_, ?_, ?_, ?_⟩
  · rw [hrsi, rLabels_getD _ hb1]
    omega
  · rw [hrsi, rLabels_getD _ hb1]
    omega
  · rw [hfsi, fLabels_getD _ hb2]
    omega
  · rw [hfsi, fLabels_getD _ hb2]
    omega

/-- The per-score customer counts of a successful run, as counts over the
binned value lists. -/
theorem rows_countP_score (df : List OrderRow) (rows : List ScoredRow)
    (rev : List (String × ℚ)) (h : computeRFM df = some (rows, rev)) :
    (∀ s : Nat, rows.countP (fun row => decide (row.r_score = s))
        = (recVals df).countP (fun v =>
            decide (rLabels.getD (binOf (qcutEdges (recVals df)) v) 0 = s)))
    ∧ (∀ s : Nat, rows.countP (fun row => decide (row.f_score = s))
        = (rankVals df).countP (fun v =>
            decide (fLabels.getD (binOf (qcutEdges (rankVals df)) v) 0 = s))) := by
  rcases computeRFM_inv df rows rev h with ⟨rs, fs, hr, hf, hrows, _⟩
  rcases qcut_inv _ _ _ hr with ⟨_, _, hrs⟩
  rcases qcut_inv _ _ _ hf with ⟨_, _, hfs⟩
  constructor
  · intro s
    rw [hrows, List.countP_map,
      countP_eq_countP_range (recVals df) _ 0, recVals_length]
    apply List.countP_congr
    intro i hi
    have hin : i < (rfm_base df).length := List.mem_range.mp hi
    simp only [Function.comp_def, mkScored, decide_eq_true_eq]
    rw [hrs, getD_map_of_lt (recVals df) _ i (by rw [recVals_length]; exact hin) 0 0]
  · intro s
    rw [hrows, List.countP_map,
      countP_eq_countP_range (rankVals df) _ 0, rankVals_length]
    apply List.countP_congr
    intro i hi
    have hin : i < (rfm_base df).length := List.mem_range.mp hi
    simp only [Function.comp_def, mkScored, decide_eq_true_eq]
    rw [hfs, getD_map_of_lt (rankVals df) _ i (by rw [rankVals_length]; exact hin) 0 0]

/-- Counting a score value over the binned values equals counting an
abstract bin over sorted positions. -/
theorem countP_label_eq_tau_count (values : List Int) (hnd : values.Nodup)
    (labels : List Nat) (s b : Nat)
    (hlab : ∀ bb, bb ≤ 4 → (labels.getD bb 0 = s ↔ bb = b)) :
    values.countP (fun v =>
        decide (labels.getD (binOf (qcutEdges values) v) 0 = s))
      = (List.range values.length).countP
          (fun j => decide (tau values.length j = b)) := by
  have h1 : values.countP (fun v =>
        decide (labels.getD (binOf (qcutEdges values) v) 0 = s))
      = values.countP (fun v => decide (binOf (qcutEdges values) v = b)) := by
    apply List.countP_congr
    intro v _
    simp only [decide_eq_true_eq]
    exact hlab _ (binOf_le_four _ _)
  rw [h1, countP_bin_eq_countP_tau values hnd b]

/-! ### The claims -/

/-- C1: for every pair `(r_score, f_score)` in `{1..5} × {1..5}`, exactly
one of the six `seg_map` patterns matches the two-digit code
`str(r) + str(f)`, and the label the regex replacement assigns agrees with
the spec's hand-authored table (`specSegment`): no pair is unmapped and no
pair matches two labels. -/
theorem c1_segment_table (r f : Nat) (hr1 : 1 ≤ r) (hr5 : r ≤ 5)
    (hf1 : 1 ≤ f) (hf5 : f ≤ 5) :
    segMatchCount (toString r ++ toString f) = 1
      ∧ segReplace (toString r ++ toString f) = specSegment r f := by
  interval_cases r <;> interval_cases f <;> exact ⟨by decide, by decide⟩

theorem c1_witness :
    (1 ≤ 4 ∧ 4 ≤ 5 ∧ 1 ≤ 5 ∧ 5 ≤ 5)
    ∧ segMatchCount (toString 4 ++ toString 5) = 1
    ∧ segReplace (toString 4 ++ toString 5) = specSegment 4 5 :=
  ⟨by decide,
   (c1_segment_table 4 5 (by decide) (by decide) (by decide) (by decide)).1,
   (c1_segment_table 4 5 (by decide) (by decide) (by decide) (by decide)).2⟩

theorem rev_sum_eq_monetary_sum (rows : List ScoredRow) :
    ((revenuePerType rows).map Prod.snd).sum = (rows.map (·.monetary)).sum := by
  rw [revenuePerType, List.map_map]
  have hnd : (sortStrings ((rows.map (·.customers_type)).dedup)).Nodup :=
    (List.perm_insertionSort _ _).nodup_iff.mpr (List.nodup_dedup _)
  have hcov : ∀ row ∈ rows,
      row.customers_type ∈ sortStrings ((rows.map (·.customers_type)).dedup) := by
    intro row hrow
    rw [sortStrings, (List.perm_insertionSort _ _).mem_iff, List.mem_dedup]
    exact List.mem_map_of_mem _ hrow
  exact sum_partition rows (·.customers_type) (·.monetary) _ hnd hcov

theorem rows_map_monetary (df : List OrderRow) (rows : List ScoredRow)
    (rev : List (String × ℚ)) (h : computeRFM df = some (rows, rev)) :
    rows.map (·.monetary) = (rfm_base df).map (·.monetary) := by
  rcases computeRFM_inv df rows rev h with ⟨rs, fs, _, _, hrows, _⟩
  rw [hrows, List.map_map]
  have hco : ((fun row : ScoredRow => row.monetary)
      ∘ (fun i => mkScored ((rfm_base df).getD i dfltRFM) (rs.getD i 0)
          (fs.getD i 0)))
      = fun i => (fun b : RFMRow => b.monetary)
          ((rfm_base df).getD i dfltRFM) := rfl
  rw [hco, range_map_getD]

theorem base_monetary_sum (df : List OrderRow) :
    ((rfm_base df).map (·.monetary)).sum = (df.map (·.price)).sum := by
  rw [rfm_base, List.map_map]
  exact sum_partition df (·.customer_unique_id) (·.price) (customersOf df)
    (customersOf_nodup df)
    (fun a ha => (mem_customersOf df _).mpr (List.mem_map_of_mem _ ha))

/-- C2: conservation law — the `monetary` column of `revenue_per_type` sums
to the `price` column of the input. -/
theorem c2_conservation (df : List OrderRow) (rows : List ScoredRow)
    (rev : List (String × ℚ)) (h : computeRFM df = some (rows, rev)) :
    (rev.map Prod.snd).sum = (df.map (·.price)).sum := by
  rcases computeRFM_inv df rows rev h with ⟨rs, fs, _, _, _, hrev⟩
  rw [hrev, rev_sum_eq_monetary_sum, rows_map_monetary df rows rev h,
    base_monetary_sum]

theorem c2_witness :
    computeRFM exA = some (resultOf exA)
    ∧ ((resultOf exA).2.map Prod.snd).sum = (exA.map (·.price)).sum := by
  have heq := computeRFM_eq_some_resultOf exA (by decide)
  exact ⟨heq, c2_conservation exA (resultOf exA).1 (resultOf exA).2 heq⟩

/-- C9: a successful run never carries an unmapped `rf_score` into the
output — every returned customer's `customers_type` is one of the six
defined segment labels. -/
theorem c9_segment_closed (df : List OrderRow) (rows : List ScoredRow)
    (rev : List (String × ℚ)) (h : computeRFM df = some (rows, rev)) :
    ∀ row ∈ rows, row.customers_type ∈ segLabels := by
  intro row hrow
  rcases rows_score_bounds df rows rev h row hrow with
    ⟨b, rr, ff, _, heq, h1, h2, h3, h4⟩
  rw [heq]
  show segReplace (toString rr ++ toString ff) ∈ segLabels
  interval_cases rr <;> interval_cases ff <;> decide

theorem c9_witness :
    computeRFM exB = some (resultOf exB)
    ∧ ((resultOf exB).1.getD 0 dfltScored).customers_type ∈ segLabels := by
  have heq := computeRFM_eq_some_resultOf exB (by decide)
  have hlen : 0 < (resultOf exB).1.length := by decide
  exact ⟨heq, c9_segment_closed exB (resultOf exB).1 (resultOf exB).2 heq _
    (getD_mem_of_lt _ 0 hlen _)⟩

/-- C5: the reference date is one day (86400 s) past the true maximum
purchase timestamp, and every returned customer has `recency ≥ 1`,
`frequency ≥ 1` and (for non-negative prices) `monetary ≥ 0`. -/
theorem c5_reference_date_and_bounds (df : List OrderRow)
    (rows : List ScoredRow) (rev : List (String × ℚ)) (hne : df ≠ [])
    (h : computeRFM df = some (rows, rev)) (hp : ∀ r ∈ df, 0 ≤ r.price) :
    maxDate df = maxTS df + 86400
    ∧ (maxDate df - 86400) ∈ df.map (·.order_purchase_timestamp)
    ∧ (∀ r ∈ df, r.order_purchase_timestamp ≤ maxDate df - 86400)
    ∧ ∀ row ∈ rows,
        1 ≤ row.recency ∧ 1 ≤ row.frequency ∧ 0 ≤ row.monetary := by
  have hsub : maxDate df - 86400 = maxTS df := by
    simp [maxDate, secondsPerDay]
  refine ⟨rfl, ?_, ?_, ?_⟩
  · rw [hsub, maxTS]
    exact listMax_mem _ (fun hmapnil => hne (List.map_eq_nil_iff.mp hmapnil))
  · intro r hr
    rw [hsub, maxTS]
    exact le_listMax _ _ (List.mem_map_of_mem _ hr)
  · intro row hrow
    rcases rows_score_bounds df rows rev h row hrow with
      ⟨b, rr, ff, hbmem, heq, _⟩
    rw [heq]
    show 1 ≤ b.recency ∧ 1 ≤ b.frequency ∧ 0 ≤ b.monetary
    rcases List.mem_map.mp hbmem with ⟨c, hc, hbc⟩
    rw [← hbc]
    have hcmem : c ∈ df.map (·.customer_unique_id) :=
      (mem_customersOf df c).mp hc
    exact ⟨recencyOf_ge_one df c hcmem, frequencyOf_ge_one df c hcmem,
      monetaryOf_nonneg df c hp⟩

theorem c5_witness :
    exA ≠ []
    ∧ computeRFM exA = some (resultOf exA)
    ∧ (∀ r ∈ exA, 0 ≤ r.price)
    ∧ (maxDate exA - 86400) ∈ exA.map (·.order_purchase_timestamp)
    ∧ 1 ≤ ((resultOf exA).1.getD 0 dfltScored).recency
    ∧ 1 ≤ ((resultOf exA).1.getD 0 dfltScored).frequency
    ∧ 0 ≤ ((resultOf exA).1.getD 0 dfltScored).monetary := by
  have hne : exA ≠ [] := by
    rw [exA]
    exact List.cons_ne_nil _ _
  have heq := computeRFM_eq_some_resultOf exA (by decide)
  have hp : ∀ r ∈ exA, 0 ≤ r.price := by decide
  have hc := c5_reference_date_and_bounds exA (resultOf exA).1
    (resultOf exA).2 hne heq hp
  have hlen : 0 < (resultOf exA).1.length := by decide
  have hrow := hc.2.2.2 _ (getD_mem_of_lt _ 0 hlen dfltScored)
  exact ⟨hne, heq, hp, hc.2.1, hrow.1, hrow.2.1, hrow.2.2⟩

/-- C6: the per-customer aggregation — every distinct input customer id
appears exactly once in `rfm_df` (and no other id appears), and each row's
`recency`, `frequency`, `monetary` are the whole-day difference from the
reference date to the group's latest timestamp, the number of distinct
order ids in the group, and the group's price sum. -/
theorem c6_aggregation (df : List OrderRow) :
    (∀ c : String,
      (rfm_base df).countP (fun row => decide (row.customer_unique_id = c))
        = if c ∈ df.map (·.customer_unique_id) then 1 else 0)
    ∧ ∀ row ∈ rfm_base df,
        row.recency = (maxDate df
            - listMax ((rowsOf df row.customer_unique_id).map
                (·.order_purchase_timestamp))) / secondsPerDay
        ∧ row.frequency
            = ((rowsOf df row.customer_unique_id).map (·.order_id)).dedup.length
        ∧ row.monetary
            = ((rowsOf df row.customer_unique_id).map (·.price)).sum := by
  constructor
  · intro c
    rw [rfm_base, List.countP_map]
    have hco : ((fun row : RFMRow => decide (row.customer_unique_id = c))
        ∘ (fun c' => (⟨c', recencyOf df c', frequencyOf df c',
            monetaryOf df c'⟩ : RFMRow)))
        = fun x => decide (x = c) := rfl
    rw [hco, countP_eq_ite_of_nodup _ (customersOf_nodup df) c]
    by_cases hc : c ∈ df.map (·.customer_unique_id)
    · rw [if_pos ((mem_customersOf df c).mpr hc), if_pos hc]
    · rw [if_neg (fun hx => hc ((mem_customersOf df c).mp hx)), if_neg hc]
  · intro row hrow
    rcases List.mem_map.mp hrow with ⟨c, _, hbc⟩
    rw [← hbc]
    exact ⟨rfl, rfl, rfl⟩

theorem c6_witness :
    ((rfm_base exB).countP
        (fun row => decide (row.customer_unique_id = "c1"))
      = if "c1" ∈ exB.map (·.customer_unique_id) then 1 else 0)
    ∧ ((rfm_base exB).getD 0 dfltRFM).recency = (maxDate exB
        - listMax ((rowsOf exB
            ((rfm_base exB).getD 0 dfltRFM).customer_unique_id).map
              (·.order_purchase_timestamp))) / secondsPerDay
    ∧ ((rfm_base exB).getD 0 dfltRFM).frequency
        = ((rowsOf exB
            ((rfm_base exB).getD 0 dfltRFM).customer_unique_id).map
              (·.order_id)).dedup.length
    ∧ ((rfm_base exB).getD 0 dfltRFM).monetary
        = ((rowsOf exB
            ((rfm_base exB).getD 0 dfltRFM).customer_unique_id).map
              (·.price)).sum := by
  have hlen : 0 < (rfm_base exB).length := by decide
  have hrow := (c6_aggregation exB).2 _ (getD_mem_of_lt _ 0 hlen dfltRFM)
  exact ⟨(c6_aggregation exB).1 "c1", hrow.1, hrow.2.1, hrow.2.2⟩

/-- C7: scoring is monotone — between any two returned customers, strictly
lower recency implies an `r_score` at least as high (recency is scored
5..1 ascending), and strictly lower frequency implies an `f_score` at most
as high (frequency ties are first broken into distinct ranks by stable
row order, so strict frequency inequality forces a strict rank
inequality). -/
theorem c7_monotone (df : List OrderRow) (rows : List ScoredRow)
    (rev : List (String × ℚ)) (h : computeRFM df = some (rows, rev))
    (i j : Nat) (hi : i < rows.length) (hj : j < rows.length) :
    ((rows.getD i dfltScored).recency < (rows.getD j dfltScored).recency →
      (rows.getD j dfltScored).r_score ≤ (rows.getD i dfltScored).r_score)
    ∧ ((rows.getD i dfltScored).frequency
          < (rows.getD j dfltScored).frequency →
      (rows.getD i dfltScored).f_score ≤ (rows.getD j dfltScored).f_score) := by
  rcases computeRFM_inv df rows rev h with ⟨rs, fs, hr, hf, hrows, _⟩
  rcases qcut_inv _ _ _ hr with ⟨_, _, hrs⟩
  rcases qcut_inv _ _ _ hf with ⟨_, _, hfs⟩
  have hlen : rows.length = (rfm_base df).length := by
    rw [hrows, List.length_map, List.length_range]
  have hi' : i < (rfm_base df).length := by omega
  have hj' : j < (rfm_base df).length := by omega
  have hgi : rows.getD i dfltScored = mkScored ((rfm_base df).getD i dfltRFM)
      (rs.getD i 0) (fs.getD i 0) := by
    rw [hrows, getD_range_map _ _ i hi' dfltScored]
  have hgj : rows.getD j dfltScored = mkScored ((rfm_base df).getD j dfltRFM)
      (rs.getD j 0) (fs.getD j 0) := by
    rw [hrows, getD_range_map _ _ j hj' dfltScored]
  have hrsi : rs.getD i 0 = rLabels.getD
      (binOf (qcutEdges (recVals df)) ((recVals df).getD i 0)) 0 := by
    rw [hrs, getD_map_of_lt (recVals df) _ i (by rw [recVals_length]; exact hi') 0 0]
  have hrsj : rs.getD j 0 = rLabels.getD
      (binOf (qcutEdges (recVals df)) ((recVals df).getD j 0)) 0 := by
    rw [hrs, getD_map_of_lt (recVals df) _ j (by rw [recVals_length]; exact hj') 0 0]
  have hfsi : fs.getD i 0 = fLabels.getD
      (binOf (qcutEdges (rankVals df)) ((rankVals df).getD i 0)) 0 := by
    rw [hfs, getD_map_of_lt (rankVals df) _ i (by rw [rankVals_length]; exact hi') 0 0]
  have hfsj : fs.getD j 0 = fLabels.getD
      (binOf (qcutEdges (rankVals df)) ((rankVals df).getD j 0)) 0 := by
    rw [hfs, getD_map_of_lt (rankVals df) _ j (by rw [rankVals_length]; exact hj') 0 0]
  have hreci : (recVals df).getD i 0 = ((rfm_base df).getD i dfltRFM).recency := by
    rw [recVals, getD_map_of_lt _ _ i hi' dfltRFM 0]
  have hrecj : (recVals df).getD j 0 = ((rfm_base df).getD j dfltRFM).recency := by
    rw [recVals, getD_map_of_lt _ _ j hj' dfltRFM 0]
  rw [hgi, hgj]
  constructor
  · intro hrec
    have hrec' : ((rfm_base df).getD i dfltRFM).recency
        < ((rfm_base df).getD j dfltRFM).recency := hrec
    have hbin : binOf (qcutEdges (recVals df)) ((recVals df).getD i 0)
        ≤ binOf (qcutEdges (recVals df)) ((recVals df).getD j 0) := by
      apply binOf_mono
      rw [hreci, hrecj]
      exact le_of_lt hrec'
    show rs.getD j 0 ≤ rs.getD i 0
    rw [hrsi, hrsj, rLabels_getD _ (binOf_le_four _ _),
      rLabels_getD _ (binOf_le_four _ _)]
    omega
  · intro hfreq
    have hfreq' : ((rfm_base df).getD i dfltRFM).frequency
        < ((rfm_base df).getD j dfltRFM).frequency := hfreq
    have hfqi : ((rfm_base df).map (·.frequency)).getD i 0
        = ((rfm_base df).getD i dfltRFM).frequency := by
      rw [getD_map_of_lt _ _ i hi' dfltRFM 0]
    have hfqj : ((rfm_base df).map (·.frequency)).getD j 0
        = ((rfm_base df).getD j dfltRFM).frequency := by
      rw [getD_map_of_lt _ _ j hj' dfltRFM 0]
    have hranki : (rankVals df).getD i 0
        = Int.ofNat ((rankFirst ((rfm_base df).map (·.frequency))).getD i 0) := by
      rw [rankVals, getD_map_of_lt _ _ i
        (by rw [rankFirst_length, List.length_map]; exact hi') 0 0]
    have hrankj : (rankVals df).getD j 0
        = Int.ofNat ((rankFirst ((rfm_base df).map (·.frequency))).getD j 0) := by
      rw [rankVals, getD_map_of_lt _ _ j
        (by rw [rankFirst_length, List.length_map]; exact hj') 0 0]
    have hrank : (rankFirst ((rfm_base df).map (·.frequency))).getD i 0
        < (rankFirst ((rfm_base df).map (·.frequency))).getD j 0 := by
      apply rank_lt_of_val_lt _ i j (by rw [List.length_map]; exact hi')
        (by rw [List.length_map]; exact hj')
      rw [hfqi, hfqj]
      exact hfreq'
    have hbin : binOf (qcutEdges (rankVals df)) ((rankVals df).getD i 0)
        ≤ binOf (qcutEdges (rankVals df)) ((rankVals df).getD j 0) := by
      apply binOf_mono
      rw [hranki, hrankj]
      exact Int.ofNat_le.mpr (le_of_lt hrank)
    show fs.getD i 0 ≤ fs.getD j 0
    rw [hfsi, hfsj, fLabels_getD _ (binOf_le_four _ _),
      fLabels_getD _ (binOf_le_four _ _)]
    omega

theorem c7_witness :
    computeRFM exB = some (resultOf exB)
    ∧ ((resultOf exB).1.getD 0 dfltScored).recency
        < ((resultOf exB).1.getD 2 dfltScored).recency
    ∧ ((resultOf exB).1.getD 2 dfltScored).r_score
        ≤ ((resultOf exB).1.getD 0 dfltScored).r_score
    ∧ ((resultOf exB).1.getD 0 dfltScored).frequency
        < ((resultOf exB).1.getD 2 dfltScored).frequency
    ∧ ((resultOf exB).1.getD 0 dfltScored).f_score
        ≤ ((resultOf exB).1.getD 2 dfltScored).f_score := by
  have heq := computeRFM_eq_some_resultOf exB (by decide)
  have hc := c7_monotone exB (resultOf exB).1 (resultOf exB).2 heq 0 2
    (by decide) (by decide)
  exact ⟨heq, by decide, hc.1 (by decide), by decide, hc.2 (by decide)⟩

/-- C3 counterexample: on `ex10` (ten distinct customers, recency values
1,2,3,4,5,5,5,6,7,8) the run succeeds, yet the `r_score = 3` bucket holds
3 customers while the `r_score = 2` bucket holds 1 — the largest bucket
exceeds the smallest by 2, refuting the `≤ 1` bucket-balance claim for
`r_score` in the presence of recency ties. -/
theorem c3_counterexample :
    (computeRFM ex10).isSome = true
    ∧ 5 ≤ ((ex10.map (·.customer_unique_id)).dedup).length
    ∧ rScoreCountOf ex10 3 = 3 ∧ rScoreCountOf ex10 2 = 1 :=
  ⟨by decide, by decide, by decide, by decide⟩

/-- C3 (amended): for a successful run on ≥ 5 distinct customers, both
scores take values only in {1,...,5}; the five `f_score` buckets always
balance to within one customer (ranking breaks all frequency ties); and
the five `r_score` buckets balance to within one customer provided the
customers' recency values are pairwise distinct (with recency ties the
bound can fail, see the counterexample). -/
theorem c3_scores_and_buckets (df : List OrderRow) (rows : List ScoredRow)
    (rev : List (String × ℚ)) (h : computeRFM df = some (rows, rev))
    (h5 : 5 ≤ ((df.map (·.customer_unique_id)).dedup).length) :
    (∀ row ∈ rows, row.r_score ∈ [1, 2, 3, 4, 5]
        ∧ row.f_score ∈ [1, 2, 3, 4, 5])
    ∧ (∀ s t : Nat, 1 ≤ s → s ≤ 5 → 1 ≤ t → t ≤ 5 →
        rows.countP (fun row => decide (row.f_score = s))
          ≤ rows.countP (fun row => decide (row.f_score = t)) + 1)
    ∧ ((recVals df).Nodup →
        ∀ s t : Nat, 1 ≤ s → s ≤ 5 → 1 ≤ t → t ≤ 5 →
          rows.countP (fun row => decide (row.r_score = s))
            ≤ rows.countP (fun row => decide (row.r_score = t)) + 1) := by
  have hn5 : 5 ≤ (rfm_base df).length := by
    rw [rfm_base_length, customersOf_length]
    exact h5
  refine ⟨?_, ?_, ?_⟩
  · intro row hrow
    rcases rows_score_bounds df rows rev h row hrow with
      ⟨b, rr, ff, _, heq, h1, h2, h3, h4⟩
    rw [heq]
    show rr ∈ [1, 2, 3, 4, 5] ∧ ff ∈ [1, 2, 3, 4, 5]
    refine ⟨?_, ?_⟩ <;>
      simp only [List.mem_cons, List.not_mem_nil, or_false] <;> omega
  · intro s t hs1 hs5 ht1 ht5
    rw [(rows_countP_score df rows rev h).2 s,
      (rows_countP_score df rows rev h).2 t,
      countP_label_eq_tau_count (rankVals df) (rankVals_nodup df) fLabels s
        (s - 1) (fun bb hbb => by rw [fLabels_getD bb hbb]; omega),
      countP_label_eq_tau_count (rankVals df) (rankVals_nodup df) fLabels t
        (t - 1) (fun bb hbb => by rw [fLabels_getD bb hbb]; omega),
      rankVals_length]
    have hbs := tau_count_bound (rfm_base df).length hn5 (s - 1) (by omega)
    have hbt := tau_count_bound (rfm_base df).length hn5 (t - 1) (by omega)
    omega
  · intro hnd s t hs1 hs5 ht1 ht5
    rw [(rows_countP_score df rows rev h).1 s,
      (rows_countP_score df rows rev h).1 t,
      countP_label_eq_tau_count (recVals df) hnd rLabels s
        (5 - s) (fun bb hbb => by rw [rLabels_getD bb hbb]; omega),
      countP_label_eq_tau_count (recVals df) hnd rLabels t
        (5 - t) (fun bb hbb => by rw [rLabels_getD bb hbb]; omega),
      recVals_length]
    have hbs := tau_count_bound (rfm_base df).length hn5 (5 - s) (by omega)
    have hbt := tau_count_bound (rfm_base df).length hn5 (5 - t) (by omega)
    omega

theorem c3_witness :
    computeRFM exA = some (resultOf exA)
    ∧ 5 ≤ ((exA.map (·.customer_unique_id)).dedup).length
    ∧ (recVals exA).Nodup
    ∧ (((resultOf exA).1.getD 0 dfltScored).r_score ∈ [1, 2, 3, 4, 5]
        ∧ ((resultOf exA).1.getD 0 dfltScored).f_score ∈ [1, 2, 3, 4, 5])
    ∧ (resultOf exA).1.countP (fun row => decide (row.f_score = 1))
        ≤ (resultOf exA).1.countP (fun row => decide (row.f_score = 5)) + 1
    ∧ (resultOf exA).1.countP (fun row => decide (row.r_score = 2))
        ≤ (resultOf exA).1.countP (fun row => decide (row.r_score = 4)) + 1 := by
  have heq := computeRFM_eq_some_resultOf exA (by decide)
  have hc := c3_scores_and_buckets exA (resultOf exA).1 (resultOf exA).2 heq
    (by decide)
  have hlen : 0 < (resultOf exA).1.length := by decide
  exact ⟨heq, by decide, by decide,
    hc.1 _ (getD_mem_of_lt _ 0 hlen dfltScored),
    hc.2.1 1 5 (by decide) (by decide) (by decide) (by decide),
    hc.2.2 (by decide) 2 4 (by decide) (by decide) (by decide) (by decide)⟩

/-- C4 counterexample: `ex4` has exactly 4 distinct customers, yet
`create_rfm_df` reports no error — `pd.qcut` only raises on duplicate bin
edges, and 4 distinct recency values give 6 distinct edges. -/
theorem c4_counterexample :
    ((ex4.map (·.customer_unique_id)).dedup).length = 4
    ∧ (computeRFM ex4).isSome = true :=
  ⟨by decide, by decide⟩

/-- C4 (amended): the code performs no distinct-customer check.  On any
input with exactly 4 distinct customers whose recency values are pairwise
distinct, `create_rfm_df` silently succeeds and returns degenerate scores:
the middle quantile bucket is empty, so no customer receives
`r_score = 3`. -/
theorem c4_no_insufficient_check (df : List OrderRow)
    (h4 : ((df.map (·.customer_unique_id)).dedup).length = 4)
    (hnd : (recVals df).Nodup) :
    (computeRFM df).isSome = true
    ∧ (resultOf df).1.countP (fun row => decide (row.r_score = 3)) = 0 := by
  have hn : (rfm_base df).length = 4 := by
    rw [rfm_base_length, customersOf_length, h4]
  have hrec := qcut_some_of_nodup (recVals df) rLabels hnd
    (by rw [recVals_length, hn]; norm_num)
  have hrank := qcut_some_of_nodup (rankVals df) fLabels (rankVals_nodup df)
    (by rw [rankVals_length, hn]; norm_num)
  have hsome : computeRFM df = some
      ((List.range (rfm_base df).length).map
        (fun i => mkScored ((rfm_base df).getD i dfltRFM)
          (((recVals df).map (fun v =>
            rLabels.getD (binOf (qcutEdges (recVals df)) v) 0)).getD i 0)
          (((rankVals df).map (fun v =>
            fLabels.getD (binOf (qcutEdges (rankVals df)) v) 0)).getD i 0)),
      revenuePerType ((List.range (rfm_base df).length).map
        (fun i => mkScored ((rfm_base df).getD i dfltRFM)
          (((recVals df).map (fun v =>
            rLabels.getD (binOf (qcutEdges (recVals df)) v) 0)).getD i 0)
          (((rankVals df).map (fun v =>
            fLabels.getD (binOf (qcutEdges (rankVals df)) v) 0)).getD i 0)))) := by
    unfold computeRFM
    rw [hrec, hrank]
  refine ⟨by rw [hsome, Option.isSome_some], ?_⟩
  have hres : (resultOf df).1 = (List.range (rfm_base df).length).map
      (fun i => mkScored ((rfm_base df).getD i dfltRFM)
        (((recVals df).map (fun v =>
          rLabels.getD (binOf (qcutEdges (recVals df)) v) 0)).getD i 0)
        (((rankVals df).map (fun v =>
          fLabels.getD (binOf (qcutEdges (rankVals df)) v) 0)).getD i 0)) := by
    rw [resultOf, hsome]
    rfl
  rw [hres]
  have hcnt := (rows_countP_score df _ _ hsome).1 3
  rw [hcnt, countP_label_eq_tau_count (recVals df) hnd rLabels 3 2
    (fun bb hbb => by rw [rLabels_getD bb hbb]; omega),
    recVals_length, hn]
  decide

theorem c4_witness :
    ((ex4.map (·.customer_unique_id)).dedup).length = 4
    ∧ (recVals ex4).Nodup
    ∧ (computeRFM ex4).isSome = true
    ∧ (resultOf ex4).1.countP (fun row => decide (row.r_score = 3)) = 0 := by
  have hc := c4_no_insufficient_check ex4 (by decide) (by decide)
  exact ⟨by decide, by decide, hc.1, hc.2⟩

/-- C8 counterexample: five distinct customers who all bought on the same
day — all five recency values coincide, `pd.qcut` gets six equal bin edges
and raises "Bin edges must be unique"; `create_rfm_df` does not succeed. -/
theorem c8_counterexample :
    ((ex5ties.map (·.customer_unique_id)).dedup).length = 5
    ∧ computeRFM ex5ties = none :=
  ⟨by decide, Option.isNone_iff_eq_none.mp (by decide)⟩

/-- C8 (amended): on an input with exactly 5 distinct customers whose
recency values are pairwise distinct, the binning succeeds without error
and every one of the five scores 1..5 is assigned to exactly one customer,
for `r_score` and for `f_score` alike. -/
theorem c8_singleton_buckets (df : List OrderRow)
    (h5 : ((df.map (·.customer_unique_id)).dedup).length = 5)
    (hnd : (recVals df).Nodup) :
    (computeRFM df).isSome = true
    ∧ ∀ s : Nat, 1 ≤ s → s ≤ 5 →
        (resultOf df).1.countP (fun row => decide (row.r_score = s)) = 1
        ∧ (resultOf df).1.countP (fun row => decide (row.f_score = s)) = 1 := by
  have hn : (rfm_base df).length = 5 := by
    rw [rfm_base_length, customersOf_length, h5]
  have hrec := qcut_some_of_nodup (recVals df) rLabels hnd
    (by rw [recVals_length, hn]; norm_num)
  have hrank := qcut_some_of_nodup (rankVals df) fLabels (rankVals_nodup df)
    (by rw [rankVals_length, hn]; norm_num)
  have hsome : computeRFM df = some
      ((List.range (rfm_base df).length).map
        (fun i => mkScored ((rfm_base df).getD i dfltRFM)
          (((recVals df).map (fun v =>
            rLabels.getD (binOf (qcutEdges (recVals df)) v) 0)).getD i 0)
          (((rankVals df).map (fun v =>
            fLabels.getD (binOf (qcutEdges (rankVals df)) v) 0)).getD i 0)),
      revenuePerType ((List.range (rfm_base df).length).map
        (fun i => mkScored ((rfm_base df).getD i dfltRFM)
          (((recVals df).map (fun v =>
            rLabels.getD (binOf (qcutEdges (recVals df)) v) 0)).getD i 0)
          (((rankVals df).map (fun v =>
            fLabels.getD (binOf (qcutEdges (rankVals df)) v) 0)).getD i 0)))) := by
    unfold computeRFM
    rw [hrec, hrank]
  refine ⟨by rw [hsome, Option.isSome_some], ?_⟩
  intro s hs1 hs5
  have hres : computeRFM df = some ((resultOf df).1, (resultOf df).2) :=
    computeRFM_eq_some_resultOf df (by rw [hsome, Option.isSome_some])
  constructor
  · rw [(rows_countP_score df _ _ hres).1 s,
      countP_label_eq_tau_count (recVals df) hnd rLabels s (5 - s)
        (fun bb hbb => by rw [rLabels_getD bb hbb]; omega),
      recVals_length, hn]
    interval_cases s <;> decide
  · rw [(rows_countP_score df _ _ hres).2 s,
      countP_label_eq_tau_count (rankVals df) (rankVals_nodup df) fLabels s
        (s - 1) (fun bb hbb => by rw [fLabels_getD bb hbb]; omega),
      rankVals_length, hn]
    interval_cases s <;> decide

theorem c8_witness :
    ((exA.map (·.customer_unique_id)).dedup).length = 5
    ∧ (recVals exA).Nodup
    ∧ (computeRFM exA).isSome = true
    ∧ (resultOf exA).1.countP (fun row => decide (row.r_score = 5)) = 1
    ∧ (resultOf exA).1.countP (fun row => decide (row.f_score = 5)) = 1 := by
  have hc := c8_singleton_buckets exA (by decide) (by decide)
  have h5 := hc.2 5 (by decide) (by decide)
  exact ⟨by decide, by decide, hc.1, h5.1, h5.2⟩

end RFM
